import Mathlib

/-!
Verification of the SQL-to-Liquibase converter
(`src/liquibase_script_convertor.py`).

The program text is shallowly embedded over `List Char`: each Python
function of the converter becomes a Lean function of the same name
(`clean_sql_content`, `escape_xml_chars`, `_extract_insert_statements` as
`findallInsert`, `_parse_values_row` as `parse_values_row`,
`_generate_column_xml` as `generate_column_xml`, `_generate_xml_content` as
`generate_xml_content`, `_generate_csv_file` as `generate_csv_file`).
The two regular expressions of the source
(`INSERT INTO ([\w_.]+)\s*\((.*?)\)\s*VALUES\s*(.*?);` and `\((.*?)\)`) are
embedded as deterministic scanners that realise exactly the backtracking
behaviour of `re.findall` on these patterns, as argued in the comments at
each definition.
-/

namespace SqlLiquibase

/-- The single-quote character `'`. -/
def q : Char := '\''

/-- The double-quote character `"`. -/
def dq : Char := '"'

/-- The backslash character. -/
def bs : Char := '\\'

/-- The whitespace characters of Python's `\s` class / `str.strip()`
(ASCII range; the inputs of interest are ASCII). -/
def isSpaceChar (c : Char) : Bool :=
  c = ' ' || c = '\t' || c = '\n' || c = '\r' || c = '\x0b' || c = '\x0c'

/-- Python `str.strip(chars)`: remove the characters satisfying `p` from both
ends of the string (`dropWhile` from the front, `rdropWhile` from the back). -/
def pyStrip (p : Char → Bool) (l : List Char) : List Char :=
  List.rdropWhile p (List.dropWhile p l)

/-- `val.strip()` — strip surrounding whitespace. -/
def stripWs (l : List Char) : List Char := pyStrip isSpaceChar l

/-- `val.strip("'")` — strip ALL surrounding single quotes. -/
def stripQ (l : List Char) : List Char := pyStrip (fun c => c = q) l

/-- Python `str.replace(old, new)` for a one-character needle `c`. -/
def replaceChar (c : Char) (rep : List Char) : List Char → List Char
  | [] => []
  | x :: xs => (if x = c then rep else [x]) ++ replaceChar c rep xs

/-- `escape_xml_chars` from the source: the five replacements are applied
sequentially in the insertion order of the `replacements` dict
(`&`, then `<`, `>`, `"`, `'`). -/
def escape_xml_chars (text : List Char) : List Char :=
  replaceChar q "&apos;".toList
    (replaceChar dq "&quot;".toList
      (replaceChar '>' "&gt;".toList
        (replaceChar '<' "&lt;".toList
          (replaceChar '&' "&amp;".toList text))))

/-- Per-character view of `escape_xml_chars`: the entity a single character is
turned into (later replacement passes never rewrite the output of an earlier
pass, which is proved in `escape_xml_chars_eq_flatMap`). -/
def entityOf (c : Char) : List Char :=
  if c = '&' then "&amp;".toList
  else if c = '<' then "&lt;".toList
  else if c = '>' then "&gt;".toList
  else if c = dq then "&quot;".toList
  else if c = q then "&apos;".toList
  else [c]

/-- One step of an XML reader decoding attribute text: given the next
character and the remaining text, produce the decoded character and the text
still to be decoded (recognising the five character entities after a `&`). -/
def decodeStep (c : Char) (rest : List Char) : Char × List Char :=
  if c = '&' then
    if rest.take 4 = ['a', 'm', 'p', ';'] then ('&', rest.drop 4)
    else if rest.take 3 = ['l', 't', ';'] then ('<', rest.drop 3)
    else if rest.take 3 = ['g', 't', ';'] then ('>', rest.drop 3)
    else if rest.take 5 = ['q', 'u', 'o', 't', ';'] then (dq, rest.drop 5)
    else if rest.take 5 = ['a', 'p', 'o', 's', ';'] then (q, rest.drop 5)
    else (c, rest)
  else (c, rest)

theorem decodeStep_length (c : Char) (rest : List Char) :
    (decodeStep c rest).2.length ≤ rest.length := by
  unfold decodeStep
  repeat' split
  all_goals simp

/-- Modelled from the spec: "re-parsing the resulting XML attribute text
(undoing the entity substitutions)".  An XML reader scans the attribute text
left to right, decoding one character (or entity) at a time. -/
def unescapeAttr : List Char → List Char
  | [] => []
  | c :: rest =>
    (decodeStep c rest).1 :: unescapeAttr (decodeStep c rest).2
termination_by l => l.length
decreasing_by
  simp only [List.length_cons, Nat.lt_succ_iff]
  apply decodeStep_length

/-- The `for char in row` loop of `_parse_values_row`.  `current` holds the
characters accumulated for the field being read, `inq` the `in_quote` flag.
A flush appends `''.join(current).strip()`; at the end of the row the last
field is flushed only when `current` is nonempty. -/
def parseRowLoop : List Char → List Char → Bool → List (List Char)
  | [], current, _ => if current = [] then [] else [stripWs current]
  | c :: rest, current, inq =>
    if c = q ∧ (current = [] ∨ current.getLast? ≠ some bs) then
      parseRowLoop rest (current ++ [c]) (!inq)
    else if c = ',' ∧ inq = false then
      stripWs current :: parseRowLoop rest [] inq
    else
      parseRowLoop rest (current ++ [c]) inq

/-- `_parse_values_row` from the source: run the character loop, then
`[val.strip().strip("'") for val in values_list]`. -/
def parse_values_row (row : List Char) : List (List Char) :=
  (parseRowLoop row [] false).map (fun v => stripQ (stripWs v))

/-! ### Escaping round-trip (claim C2) -/

theorem replaceChar_append (c : Char) (rep a b : List Char) :
    replaceChar c rep (a ++ b) = replaceChar c rep a ++ replaceChar c rep b := by
  induction a with
  | nil => rfl
  | cons x xs ih => simp [replaceChar, ih]

theorem escape_append (a b : List Char) :
    escape_xml_chars (a ++ b) = escape_xml_chars a ++ escape_xml_chars b := by
  simp [escape_xml_chars, replaceChar_append]

theorem escape_singleton (x : Char) : escape_xml_chars [x] = entityOf x := by
  by_cases h1 : x = '&'
  · subst h1; rfl
  · by_cases h2 : x = '<'
    · subst h2; rfl
    · by_cases h3 : x = '>'
      · subst h3; rfl
      · by_cases h4 : x = dq
        · subst h4; rfl
        · by_cases h5 : x = q
          · subst h5; rfl
          · simp [escape_xml_chars, entityOf, replaceChar, h1, h2, h3, h4, h5]

theorem escape_eq_flatMap (l : List Char) :
    escape_xml_chars l = l.flatMap entityOf := by
  induction l with
  | nil => rfl
  | cons x xs ih =>
    rw [show x :: xs = [x] ++ xs from rfl, escape_append, escape_singleton, ih]
    rfl

theorem unescapeAttr_entity (c : Char) (l : List Char) :
    unescapeAttr (entityOf c ++ l) = c :: unescapeAttr l := by
  by_cases h1 : c = '&'
  · subst h1
    show unescapeAttr ('&' :: 'a' :: 'm' :: 'p' :: ';' :: l) = _
    rw [unescapeAttr]; simp [decodeStep]
  · by_cases h2 : c = '<'
    · subst h2
      show unescapeAttr ('&' :: 'l' :: 't' :: ';' :: l) = _
      rw [unescapeAttr]; simp [decodeStep]
    · by_cases h3 : c = '>'
      · subst h3
        show unescapeAttr ('&' :: 'g' :: 't' :: ';' :: l) = _
        rw [unescapeAttr]; simp [decodeStep]
      · by_cases h4 : c = dq
        · subst h4
          show unescapeAttr ('&' :: 'q' :: 'u' :: 'o' :: 't' :: ';' :: l) = _
          rw [unescapeAttr]; simp [decodeStep]
        · by_cases h5 : c = q
          · subst h5
            show unescapeAttr ('&' :: 'a' :: 'p' :: 'o' :: 's' :: ';' :: l) = _
            rw [unescapeAttr]; simp [decodeStep]
          · have he : entityOf c = [c] := by
              simp [entityOf, h1, h2, h3, h4, h5]
            rw [he]
            show unescapeAttr (c :: l) = c :: unescapeAttr l
            rw [unescapeAttr]; simp [decodeStep, h1]

theorem unescape_escape (l : List Char) :
    unescapeAttr (escape_xml_chars l) = l := by
  rw [escape_eq_flatMap]
  induction l with
  | nil => simp [unescapeAttr]
  | cons x xs ih => rw [List.flatMap_cons, unescapeAttr_entity, ih]

/-- C2: for every string value containing any of the characters `&`, `<`, `>`,
`"`, `'`, applying `escape_xml_chars` (which substitutes `&` first, then the
other four characters, in order) and then re-parsing the resulting XML
attribute text (undoing the entity substitutions) yields back the original
string; in particular no character is double-escaped. -/
theorem c2_escape_roundtrip (l : List Char)
    (h : ∃ c ∈ l, c ∈ ['&', '<', '>', dq, q]) :
    unescapeAttr (escape_xml_chars l) = l :=
  unescape_escape l

/-- Witness for C2 at the concrete value `a&b<c>"d'`. -/
theorem c2_escape_roundtrip_witness :
    unescapeAttr (escape_xml_chars "a&b<c>\"d'".toList) = "a&b<c>\"d'".toList :=
  c2_escape_roundtrip _ (by decide)

/-! ### The statement extractor
`_extract_insert_statements` runs
`re.findall(r"INSERT INTO ([\w_.]+)\s*\((.*?)\)\s*VALUES\s*(.*?);", sql, re.DOTALL)`.
On this pattern the Python backtracking engine is deterministic except at the
non-greedy `\((.*?)\)` group, whose capture extends to the next `)` each time
the rest of the pattern fails after the current candidate `)`:
`[\w_.]+` is greedy and can never give characters back (the class is disjoint
from `\s` and from `(`), each `\s*` is followed by a non-whitespace literal,
and `(.*?);` always captures up to the first `;` (with `re.DOTALL`, `.`
matches newlines too, so no character restriction applies). -/

/-- Match a literal prefix, returning the remainder of the text. -/
def dropLit : List Char → List Char → Option (List Char)
  | [], s => some s
  | _ :: _, [] => none
  | p :: ps, c :: cs => if p = c then dropLit ps cs else none

/-- The `[\w_.]` character class of the statement regex (`\w` over ASCII). -/
def isWordDot (c : Char) : Bool := c.isAlpha || c.isDigit || c = '_' || c = '.'

/-- The `\s*VALUES\s*(.*?);` tail of the statement regex, tried after a
candidate closing parenthesis: skip whitespace, match `VALUES`, skip
whitespace, then capture non-greedily up to the first `;` (failing when no
`;` follows). -/
def contAfterParen (s : List Char) : Option (List Char × List Char) :=
  match dropLit "VALUES".toList (s.dropWhile isSpaceChar) with
  | none => none
  | some s2 =>
    match (s2.dropWhile isSpaceChar).dropWhile (fun c => c ≠ ';') with
    | [] => none
    | _ :: after =>
      some ((s2.dropWhile isSpaceChar).takeWhile (fun c => c ≠ ';'), after)

/-- Backtracking over the candidate closing parentheses of the non-greedy
`\((.*?)\)` columns group: the capture (accumulated reversed in `acc`) grows
to the next `)` whenever the rest of the pattern fails after the current
one. -/
def tryCloseParen : List Char → List Char → Option (List Char × List Char × List Char)
  | [], _ => none
  | c :: rest, acc =>
    if c = ')' then
      match contAfterParen rest with
      | some (g3, after) => some (acc.reverse, g3, after)
      | none => tryCloseParen rest (c :: acc)
    else tryCloseParen rest (c :: acc)

/-- One attempt of the statement regex anchored at the start of `s`.  Returns
the three captured groups `(table, columns, values)` and the text after the
match. -/
def matchInsertAt (s : List Char) :
    Option ((List Char × List Char × List Char) × List Char) :=
  match dropLit "INSERT INTO ".toList s with
  | none => none
  | some s1 =>
    if s1.takeWhile isWordDot = [] then none
    else
      match (s1.dropWhile isWordDot).dropWhile isSpaceChar with
      | '(' :: s4 =>
        match tryCloseParen s4 [] with
        | some (g2, g3, after) =>
          some ((s1.takeWhile isWordDot, g2, g3), after)
        | none => none
      | _ => none

theorem dropLit_length {p s r : List Char} (h : dropLit p s = some r) :
    p.length + r.length = s.length := by
  induction p generalizing s with
  | nil => simp [dropLit] at h; simp [h]
  | cons x xs ih =>
    cases s with
    | nil => simp [dropLit] at h
    | cons c cs =>
      simp only [dropLit] at h
      split at h
      · have := ih h
        simp [List.length_cons]
        omega
      · exact absurd h (by simp)

theorem length_dropWhile_le (p : Char → Bool) (l : List Char) :
    (l.dropWhile p).length ≤ l.length :=
  (List.dropWhile_suffix p).sublist.length_le

theorem contAfterParen_length {s g3 after : List Char}
    (h : contAfterParen s = some (g3, after)) : after.length < s.length := by
  unfold contAfterParen at h
  split at h
  · exact absurd h (by simp)
  · rename_i s2 hdrop
    split at h
    · exact absurd h (by simp)
    · rename_i c after' hafter
      have h1 : (6 : Nat) + s2.length = (s.dropWhile isSpaceChar).length :=
        dropLit_length hdrop
      have h2 : ((s2.dropWhile isSpaceChar).dropWhile (fun c => c ≠ ';')).length
          ≤ s2.length :=
        le_trans (length_dropWhile_le _ _) (length_dropWhile_le _ _)
      rw [hafter] at h2
      have h3 : (s.dropWhile isSpaceChar).length ≤ s.length :=
        length_dropWhile_le _ _
      simp only [Option.some.injEq, Prod.mk.injEq] at h
      have : after' = after := h.2
      subst this
      simp only [List.length_cons] at h2
      omega

theorem tryCloseParen_length {g2 g3 after : List Char} :
    ∀ {s acc : List Char}, tryCloseParen s acc = some (g2, g3, after) →
      after.length < s.length := by
  intro s
  induction s with
  | nil => intro acc h; simp [tryCloseParen] at h
  | cons c rest ih =>
    intro acc h
    simp only [tryCloseParen] at h
    split at h
    · split at h
      · rename_i g3' after' hcont
        simp only [Option.some.injEq, Prod.mk.injEq] at h
        obtain ⟨-, -, h3⟩ := h
        subst h3
        exact lt_trans (contAfterParen_length hcont) (by simp)
      · exact lt_trans (ih h) (by simp)
    · exact lt_trans (ih h) (by simp)

theorem matchInsertAt_length :
    ∀ {s' : List Char} {tr : List Char × List Char × List Char}
      {aft : List Char}, matchInsertAt s' = some (tr, aft) →
      aft.length < s'.length := by
  intro s' tr aft h
  unfold matchInsertAt at h
  split at h
  · exact absurd h (by simp)
  · rename_i s1 hlit
    split at h
    · exact absurd h (by simp)
    · split at h
      · rename_i s4 hs4
        split at h
        · rename_i g2 g3 after' htry
          simp only [Option.some.injEq, Prod.mk.injEq] at h
          have haft : after' = aft := h.2
          subst haft
          have h1 : after'.length < s4.length := tryCloseParen_length htry
          have h2 : ('(' :: s4).length ≤ (s1.dropWhile isWordDot).length := by
            rw [← hs4]; exact length_dropWhile_le _ _
          have h3 : (s1.dropWhile isWordDot).length ≤ s1.length :=
            length_dropWhile_le _ _
          have h4 : (12 : Nat) + s1.length = s'.length := dropLit_length hlit
          simp only [List.length_cons] at h2
          omega
        · exact absurd h (by simp)
      · exact absurd h (by simp)

/-- Fuelled scanning loop of `re.findall` for the statement regex: try a
match at the current position; on success record the groups and continue
after the match, on failure advance one character.  `fuel` only serves
termination; any `fuel ≥ length of the text` gives the same result
(`findallGo_fuel`). -/
def findallGo : Nat → List Char → List (List Char × List Char × List Char)
  | _, [] => []
  | 0, _ :: _ => []
  | fuel + 1, c :: rest =>
    match matchInsertAt (c :: rest) with
    | some (t, after) => t :: findallGo fuel after
    | none => findallGo fuel rest

theorem findallGo_fuel :
    ∀ (f f' : Nat) (l : List Char), l.length ≤ f → l.length ≤ f' →
      findallGo f l = findallGo f' l := by
  intro f
  induction f with
  | zero =>
    intro f' l hf _
    have : l = [] := List.length_eq_zero.mp (Nat.le_zero.mp hf)
    subst this
    cases f' <;> rfl
  | succ f ih =>
    intro f' l hf hf'
    cases l with
    | nil => cases f' <;> rfl
    | cons c rest =>
      cases f' with
      | zero => simp at hf'
      | succ f'' =>
        simp only [findallGo]
        cases hm : matchInsertAt (c :: rest) with
        | some p =>
          obtain ⟨t, after⟩ := p
          have hlen : after.length < (c :: rest).length := matchInsertAt_length hm
          simp only [List.length_cons] at hlen hf hf'
          show t :: findallGo f after = t :: findallGo f'' after
          rw [ih f'' after (by omega) (by omega)]
        | none =>
          simp only [List.length_cons] at hf hf'
          exact ih f'' rest (by omega) (by omega)

/-- `_extract_insert_statements` from the source. -/
def findallInsert (l : List Char) : List (List Char × List Char × List Char) :=
  findallGo l.length l

theorem findallInsert_cons_some {c : Char} {rest after : List Char}
    {t : List Char × List Char × List Char}
    (h : matchInsertAt (c :: rest) = some (t, after)) :
    findallInsert (c :: rest) = t :: findallInsert after := by
  have hlen : after.length < (c :: rest).length := matchInsertAt_length h
  simp only [List.length_cons] at hlen
  unfold findallInsert
  simp only [List.length_cons, findallGo, h]
  rw [findallGo_fuel rest.length after.length after (by omega) le_rfl]

theorem findallInsert_cons_none {c : Char} {rest : List Char}
    (h : matchInsertAt (c :: rest) = none) :
    findallInsert (c :: rest) = findallInsert rest := by
  unfold findallInsert
  simp only [List.length_cons, findallGo, h]

/-! ### Preprocessing (`clean_sql_content`) and the remaining pipeline -/

/-- Fuelled loop for `re.sub(r'--.*$', '', content, flags=re.MULTILINE)`:
from each `--` on, characters are dropped up to (and excluding) the next
newline.  Any `fuel ≥ length of the text` gives the fixpoint behaviour. -/
def removeCommentsGo : Nat → List Char → List Char
  | _, [] => []
  | 0, l => l
  | fuel + 1, c :: rest =>
    if c = '-' ∧ rest.head? = some '-' then
      removeCommentsGo fuel (rest.dropWhile (fun x => x ≠ '\n'))
    else c :: removeCommentsGo fuel rest

def removeComments (l : List Char) : List Char := removeCommentsGo l.length l

/-- Fuelled loop for `re.sub(r'\s+', ' ', content)`: every maximal run of
whitespace becomes a single space. -/
def collapseWsGo : Nat → List Char → List Char
  | _, [] => []
  | 0, l => l
  | fuel + 1, c :: rest =>
    if isSpaceChar c then ' ' :: collapseWsGo fuel (rest.dropWhile isSpaceChar)
    else c :: collapseWsGo fuel rest

def collapseWs (l : List Char) : List Char := collapseWsGo l.length l

/-- `clean_sql_content` from the source: strip line comments, collapse
whitespace runs, trim the ends. -/
def clean_sql_content (content : List Char) : List Char :=
  stripWs (collapseWs (removeComments content))

/-- Fuelled scanning loop of `re.findall(r"\((.*?)\)", values, re.DOTALL)`:
at each `(` the non-greedy group captures up to the next `)` (the scan
resumes after it); with no `)` ahead the scan advances one character. -/
def findTupleRowsGo : Nat → List Char → List (List Char)
  | _, [] => []
  | 0, _ :: _ => []
  | fuel + 1, c :: rest =>
    if c = '(' then
      match rest.dropWhile (fun x => x ≠ ')') with
      | [] => findTupleRowsGo fuel rest
      | _ :: after =>
        rest.takeWhile (fun x => x ≠ ')') :: findTupleRowsGo fuel after
    else findTupleRowsGo fuel rest

/-- The value-tuple scan `rows = re.findall(r"\((.*?)\)", values, re.DOTALL)`. -/
def findTupleRows (l : List Char) : List (List Char) := findTupleRowsGo l.length l

/-- Python `str.upper()` (ASCII). -/
def pyUpper (l : List Char) : List Char := l.map Char.toUpper

/-- `_generate_column_xml` from the source. -/
def generate_column_xml (column value : List Char) : List Char :=
  if pyUpper value = "NULL".toList then
    "            <column name=\"".toList ++ column ++ "\"/>".toList
  else
    "            <column name=\"".toList ++ column ++ "\" value=\"".toList
      ++ escape_xml_chars value ++ "\"/>".toList

/-- `table_name.split('.')[-1]`: the part after the last dot. -/
def lastDotComponent (t : List Char) : List Char :=
  (t.reverse.takeWhile (fun c => c ≠ '.')).reverse

/-- `columns_list = [col.strip() for col in columns.split(",")]`. -/
def splitCols (cols : List Char) : List (List Char) :=
  (cols.splitOn ',').map stripWs

/-- The opening line `'        <insert tableName="{}">'.format(table_name)`. -/
def insertHeader (tableName : List Char) : List Char :=
  "        <insert tableName=\"".toList ++ tableName ++ "\">".toList

/-- The `<column>` lines of one block: `for col, val in zip(columns_list,
values_list)`. -/
def insertColumnLines (cols vals : List (List Char)) : List (List Char) :=
  (cols.zip vals).map fun p => generate_column_xml p.1 p.2

/-- The lines of one `<insert>` block of `_generate_xml_content`, joined with
newlines: header, one `<column>` line per `zip`-paired column/value, footer. -/
def insertBlock (tableName : List Char) (cols vals : List (List Char)) :
    List Char :=
  List.intercalate ['\n']
    (insertHeader tableName
      :: insertColumnLines cols vals
      ++ ["        </insert>".toList])

/-- The loops of `_generate_xml_content`: one XML block per parsed row, in
statement order (table names lose their schema prefix here). -/
def xmlInsertBlocks (stmts : List (List Char × List Char × List Char)) :
    List (List Char) :=
  stmts.flatMap fun t =>
    (findTupleRows t.2.2).map fun row =>
      insertBlock (lastDotComponent t.1) (splitCols t.2.1) (parse_values_row row)

/-- The part of `XML_TEMPLATE` before the `{timestamp}` placeholder. -/
def xmlTemplatePre : List Char :=
  ("<?xml version=\"1.0\" encoding=\"UTF-8\"?>\n"
   ++ "<databaseChangeLog xmlns=\"http://www.liquibase.org/xml/ns/dbchangelog\"\n"
   ++ "                   xmlns:xsi=\"http://www.w3.org/2001/XMLSchema-instance\"\n"
   ++ "                   xsi:schemaLocation=\"http://www.liquibase.org/xml/ns/dbchangelog\n"
   ++ "                       http://www.liquibase.org/xml/ns/dbchangelog/dbchangelog-4.26.xsd\">\n"
   ++ "    <changeSet author=\"your_author\" id=\"your_id_").toList

/-- The part of `XML_TEMPLATE` after the `{content}` placeholder. -/
def xmlTemplatePost : List Char :=
  "\n    </changeSet>\n</databaseChangeLog>\n".toList

/-- `_generate_xml_content` from the source: the changelog template with the
timestamp spliced into the changeSet id and the blocks joined by newlines as
the changeSet content. -/
def generate_xml_content (timestamp : List Char)
    (stmts : List (List Char × List Char × List Char)) : List Char :=
  xmlTemplatePre ++ timestamp ++ "\">\n".toList
    ++ List.intercalate ['\n'] (xmlInsertBlocks stmts)
    ++ xmlTemplatePost

/-- `val if val.upper() != "NULL" else ""` of `_generate_csv_file`. -/
def csvCell (val : List Char) : List Char :=
  if pyUpper val = "NULL".toList then [] else val

/-- Python dict assignment `d[k] = v` on an insertion-ordered association
list: an existing key keeps its position and gets the new value, a new key
is appended at the end. -/
def dictInsert (k v : List Char) (d : List (List Char × List Char)) :
    List (List Char × List Char) :=
  if d.any (fun p => p.1 = k) then
    d.map fun p => if p.1 = k then (k, v) else p
  else d ++ [(k, v)]

/-- The `row_dict` built for one row by `_generate_csv_file`. -/
def csvRowDict (cols vals : List (List Char)) : List (List Char × List Char) :=
  (cols.zip vals).foldl (fun d p => dictInsert p.1 (csvCell p.2) d) []

/-- The `csv_data` list of `_generate_csv_file`. -/
def buildCsvData (stmts : List (List Char × List Char × List Char)) :
    List (List (List Char × List Char)) :=
  stmts.flatMap fun t =>
    (findTupleRows t.2.2).map fun row =>
      csvRowDict (splitCols t.2.1) (parse_values_row row)

/-- `_generate_csv_file` from the source: `none` models "no file is written"
(the `if csv_data:` guard); otherwise the header (the first row's keys) and
the row dicts are written. -/
def generate_csv_file (stmts : List (List Char × List Char × List Char)) :
    Option (List (List Char) × List (List (List Char × List Char))) :=
  match buildCsvData stmts with
  | [] => none
  | d :: rest => some (d.map Prod.fst, d :: rest)

/-- The `<insert>` blocks produced by a full conversion of an input text
(read → clean → extract → serialize), in order. -/
def conversionInserts (input : List Char) : List (List Char) :=
  xmlInsertBlocks (findallInsert (clean_sql_content input))

/-! ### A well-formedness checker for XML empty-element tags (claim C10) -/

/-- The length of the XML character entity starting after a `&`, when there
is one. -/
def entityAfterAmp (rest : List Char) : Option Nat :=
  if rest.take 4 = ['a', 'm', 'p', ';'] then some 4
  else if rest.take 3 = ['l', 't', ';'] then some 3
  else if rest.take 3 = ['g', 't', ';'] then some 3
  else if rest.take 5 = ['q', 'u', 'o', 't', ';'] then some 5
  else if rest.take 5 = ['a', 'p', 'o', 's', ';'] then some 5
  else none

/-- Scan a double-quoted XML attribute value up to its closing quote: a raw
`<` is forbidden and a `&` must begin a character entity.  Returns the text
after the closing quote, `none` when the value is ill-formed. -/
def scanAttrValue : Nat → List Char → Option (List Char)
  | _, [] => none
  | 0, _ :: _ => none
  | fuel + 1, c :: rest =>
    if c = dq then some rest
    else if c = '<' then none
    else if c = '&' then
      match entityAfterAmp rest with
      | some k => scanAttrValue fuel (rest.drop k)
      | none => none
    else scanAttrValue fuel rest

/-- A name in an XML tag (letters, digits, `_`, `-`, `:`, `.`). -/
def isXmlNameChar (c : Char) : Bool :=
  c.isAlpha || c.isDigit || c = '_' || c = '-' || c = ':' || c = '.'

/-- Scan the attribute list of an empty-element tag after the element name:
repeated `S name="value"`, terminated by an optional `S` and `/>` at the very
end of the text. -/
def scanAttrs : Nat → List Char → Bool
  | _, [] => false
  | 0, _ :: _ => false
  | fuel + 1, l =>
    if l.take 2 = ['/', '>'] then l.drop 2 = []
    else
      match l with
      | ' ' :: rest =>
        let rest2 := rest.dropWhile (fun c => c = ' ')
        if rest2.take 2 = ['/', '>'] then rest2.drop 2 = []
        else
          if rest2.takeWhile isXmlNameChar = [] then false
          else
            match rest2.dropWhile isXmlNameChar with
            | '=' :: d :: rest4 =>
              if d = dq then
                match scanAttrValue rest4.length rest4 with
                | some rest5 => scanAttrs fuel rest5
                | none => false
              else false
            | _ => false
      | _ => false

/-- A well-formed XML empty-element tag `<name (S attr)* S? />` whose
attribute values are double-quoted. -/
def wfEmptyTag (l : List Char) : Bool :=
  match l with
  | '<' :: rest =>
    if rest.takeWhile isXmlNameChar = [] then false
    else scanAttrs l.length (rest.dropWhile isXmlNameChar)
  | _ => false

/-! ### Boundary properties of the field post-processing -/

theorem dropWhile_head_not {p : Char → Bool} {l : List Char} {x : Char}
    {xs : List Char} (h : l.dropWhile p = x :: xs) : p x = false := by
  induction l with
  | nil => simp [List.dropWhile] at h
  | cons c cs ih =>
    rw [List.dropWhile_cons] at h
    split at h
    · exact ih h
    · rename_i hc
      cases h
      simpa using hc

theorem pyStrip_head_not {p : Char → Bool} {l : List Char} {x : Char}
    {xs : List Char} (h : pyStrip p l = x :: xs) : p x = false := by
  unfold pyStrip at h
  obtain ⟨t, ht⟩ := List.rdropWhile_prefix p (l.dropWhile p)
  rw [h] at ht
  exact dropWhile_head_not ht.symm

theorem pyStrip_getLast_not {p : Char → Bool} {l v : List Char}
    (h : pyStrip p l = v) (hv : v ≠ []) (a : Char)
    (ha : v.getLast? = some a) : p a = false := by
  subst h
  unfold pyStrip at hv ha
  have hlast := List.rdropWhile_last_not p (l.dropWhile p) hv
  rw [List.getLast?_eq_getLast _ hv] at ha
  have haa : (List.rdropWhile p (l.dropWhile p)).getLast hv = a := by
    injection ha
  rw [haa] at hlast
  simpa using hlast

/-! ### Claim theorems: concrete pipeline behaviour -/

/-- C1: for the input text `INSERT INTO users (id, name) VALUES (1, 'Alice'),
(2, NULL);`, the conversion produces exactly two `<insert tableName="users">`
blocks: the first containing `<column name="id" value="1"/>` and
`<column name="name" value="Alice"/>`, the second containing
`<column name="id" value="2"/>` and a valueless `<column name="name"/>`. -/
theorem c1_concrete_conversion :
    conversionInserts
        "INSERT INTO users (id, name) VALUES (1, 'Alice'), (2, NULL);".toList
      = ["        <insert tableName=\"users\">\n            <column name=\"id\" value=\"1\"/>\n            <column name=\"name\" value=\"Alice\"/>\n        </insert>".toList,
         "        <insert tableName=\"users\">\n            <column name=\"id\" value=\"2\"/>\n            <column name=\"name\"/>\n        </insert>".toList] := by
  decide

/-- C3 (counterexample): with the malformed statement (no trailing `;`)
placed before a well-formed one, the extractor does NOT skip it: the
non-greedy `(.*?);` extends the first statement's values across the second
statement, so the well-formed `INSERT INTO b` produces no block of its own —
its row `9` is attributed to table `a` and a spurious row `y` appears.  The
claim's predicted output (only the block of the well-formed statement) is not
produced. -/
theorem c3_counterexample :
    findallInsert (clean_sql_content
        "INSERT INTO a (x) VALUES (1) INSERT INTO b (y) VALUES (9);".toList)
      = [("a".toList, "x".toList, "(1) INSERT INTO b (y) VALUES (9)".toList)]
    ∧ conversionInserts
        "INSERT INTO a (x) VALUES (1) INSERT INTO b (y) VALUES (9);".toList
      = ["        <insert tableName=\"a\">\n            <column name=\"x\" value=\"1\"/>\n        </insert>".toList,
         "        <insert tableName=\"a\">\n            <column name=\"x\" value=\"y\"/>\n        </insert>".toList,
         "        <insert tableName=\"a\">\n            <column name=\"x\" value=\"9\"/>\n        </insert>".toList]
    ∧ conversionInserts
        "INSERT INTO a (x) VALUES (1) INSERT INTO b (y) VALUES (9);".toList
      ≠ ["        <insert tableName=\"b\">\n            <column name=\"y\" value=\"9\"/>\n        </insert>".toList] := by
  refine ⟨by decide, by decide, by decide⟩

/-- C5: the NULL-sentinel check is applied to each field's content after
quote stripping (the parser's post-processing `val.strip().strip("'")`): for
every parsed field whose value uppercases to `NULL` — whether the source
token was the bare keyword `NULL` in any letter case or the quoted string
`'NULL'` — the XML serializer emits a self-closing `<column name="…"/>`
without a `value` attribute, and the CSV serializer maps the field to the
empty string. -/
theorem c5_null_sentinel (column row v : List Char)
    (hmem : v ∈ parse_values_row row)
    (h : pyUpper v = "NULL".toList) :
    generate_column_xml column v
        = "            <column name=\"".toList ++ column ++ "\"/>".toList
      ∧ csvCell v = [] := by
  exact ⟨by simp [generate_column_xml, h], by simp [csvCell, h]⟩

/-- Witness for C5 with the quoted token `'NULL'`: quote stripping turns it
into the sentinel. -/
theorem c5_null_sentinel_witness :
    ("NULL".toList ∈ parse_values_row "2, 'NULL'".toList
        ∧ pyUpper "NULL".toList = "NULL".toList)
      ∧ (generate_column_xml "name".toList "NULL".toList
            = "            <column name=\"".toList ++ "name".toList
              ++ "\"/>".toList
          ∧ csvCell "NULL".toList = []) :=
  ⟨⟨by decide, by decide⟩,
    c5_null_sentinel "name".toList "2, 'NULL'".toList "NULL".toList
      (by decide) (by decide)⟩

/-- C6 (counterexample): the claim predicts that a field whose trimmed text
is `''x''` yields `'x'` (one quote layer stripped); the code's
`val.strip().strip("'")` strips ALL surrounding quotes and yields `x`. -/
theorem c6_counterexample :
    parse_values_row "''x''".toList = ["x".toList]
      ∧ parse_values_row "''x''".toList ≠ ["'x'".toList] :=
  ⟨by decide, by decide⟩

/-- C6 (amended): the post-processing trims surrounding whitespace and then
strips ALL surrounding single quotes (`str.strip("'")` removes every leading
and trailing quote, not a single layer): a field whose trimmed text is
`''x''` yields `x`, and no parsed field ever begins or ends with a single
quote. -/
theorem c6_strip_all_quotes (row v : List Char)
    (h : v ∈ parse_values_row row) :
    v.head? ≠ some q ∧ v.getLast? ≠ some q := by
  unfold parse_values_row at h
  rw [List.mem_map] at h
  obtain ⟨u, -, hu⟩ := h
  constructor
  · intro hhead
    cases hv : v with
    | nil => rw [hv] at hhead; simp at hhead
    | cons x xs =>
      rw [hv] at hhead
      simp only [List.head?_cons, Option.some.injEq] at hhead
      rw [hv] at hu
      have := pyStrip_head_not (p := fun c => c = q) hu
      rw [hhead] at this
      simp at this
  · intro hlast
    have hv : v ≠ [] := by
      intro he
      rw [he] at hlast
      simp at hlast
    have := pyStrip_getLast_not (p := fun c => c = q) hu hv q hlast
    simp at this

/-- Witness for C6 (amended) at the field text `''x''`. -/
theorem c6_strip_all_quotes_witness :
    "x".toList ∈ parse_values_row "''x''".toList
      ∧ ("x".toList.head? ≠ some q ∧ "x".toList.getLast? ≠ some q) :=
  ⟨by decide, c6_strip_all_quotes "''x''".toList "x".toList (by decide)⟩

/-- C8: for every input whose cleaned text yields no statement match
(including the empty input), the XML output is the fixed changelog template
with a single changeSet containing no `<insert>` children (the block list is
empty and the content slot collapses to an empty line), and no CSV file is
written. -/
theorem c8_empty_changelog (input timestamp : List Char)
    (h : findallInsert (clean_sql_content input) = []) :
    xmlInsertBlocks (findallInsert (clean_sql_content input)) = []
      ∧ generate_xml_content timestamp (findallInsert (clean_sql_content input))
          = xmlTemplatePre ++ timestamp ++ "\">\n".toList ++ xmlTemplatePost
      ∧ generate_csv_file (findallInsert (clean_sql_content input)) = none := by
  rw [h]
  refine ⟨rfl, ?_, rfl⟩
  simp [generate_xml_content, xmlInsertBlocks, List.intercalate]

/-- Witness for C8 at an input containing only a comment. -/
theorem c8_empty_changelog_witness :
    findallInsert (clean_sql_content "-- only a comment\n".toList) = []
      ∧ (xmlInsertBlocks
            (findallInsert (clean_sql_content "-- only a comment\n".toList)) = []
          ∧ generate_xml_content "20240101000000".toList
              (findallInsert (clean_sql_content "-- only a comment\n".toList))
            = xmlTemplatePre ++ "20240101000000".toList ++ "\">\n".toList
              ++ xmlTemplatePost
          ∧ generate_csv_file
              (findallInsert (clean_sql_content "-- only a comment\n".toList))
            = none) :=
  ⟨by decide,
    c8_empty_changelog "-- only a comment\n".toList "20240101000000".toList
      (by decide)⟩

/-- C9: the tuple scan `\((.*?)\)` ignores quote context: for the input
`INSERT INTO t (a, b) VALUES ('x)y', 2);`, whose single-quoted field value
contains `)`, the extracted row text stops at that `)` inside the quotes
(the row text is `'x`), so the parsed row omits the remainder `y', 2` of the
SQL tuple — the produced block carries only `a="x"`. -/
theorem c9_tuple_scan_ignores_quotes :
    findallInsert (clean_sql_content
        "INSERT INTO t (a, b) VALUES ('x)y', 2);".toList)
      = [("t".toList, "a, b".toList, "('x)y', 2)".toList)]
    ∧ findTupleRows "('x)y', 2)".toList = ["'x".toList]
    ∧ conversionInserts "INSERT INTO t (a, b) VALUES ('x)y', 2);".toList
      = ["        <insert tableName=\"t\">\n            <column name=\"a\" value=\"x\"/>\n        </insert>".toList] := by
  refine ⟨by decide, by decide, by decide⟩

/-! ### Claim C10: identifiers bypass the XML escaping -/

theorem count_dq_entityOf (c : Char) : (entityOf c).count dq = 0 := by
  unfold entityOf
  repeat' split
  any_goals decide
  rename_i h1 h2 h3 h4 h5
  simp [List.count_cons, h4]

theorem count_dq_escape (value : List Char) :
    (escape_xml_chars value).count dq = 0 := by
  rw [escape_eq_flatMap]
  induction value with
  | nil => rfl
  | cons x xs ih =>
    rw [List.flatMap_cons, List.count_append, count_dq_entityOf, ih]

theorem prefix_intercalate_cons (sep x : List Char) (xs : List (List Char)) :
    x <+: List.intercalate sep (x :: xs) := by
  cases xs with
  | nil => simp [List.intercalate]
  | cons y ys =>
    rw [List.intercalate, List.intersperse_cons_cons, List.flatten_cons]
    exact ⟨sep ++ (List.intersperse sep (y :: ys)).flatten, by simp⟩

/-- C10: XML character escaping is applied only to field values, never to
identifiers: the parsed column name and table name appear verbatim in the
emitted `<column>`/`<insert>` text (so a `"` in a column name contributes a
raw extra quote to the tag — the quote count is `4 + count of quotes in the
name` while the escaped value contributes none), and for the input
`INSERT INTO t (a"b) VALUES (1);`, whose column name contains `"`, the
produced column tag is not a well-formed XML empty-element tag (while a tag
from a benign name is, even with all special characters in the value). -/
theorem c10_identifiers_not_escaped :
    (∀ column value : List Char, column <:+: generate_column_xml column value)
    ∧ (∀ (tableName : List Char) (cols vals : List (List Char)),
        tableName <:+: insertBlock tableName cols vals)
    ∧ (∀ column value : List Char, pyUpper value ≠ "NULL".toList →
        (generate_column_xml column value).count dq = 4 + column.count dq)
    ∧ wfEmptyTag (stripWs (generate_column_xml "ab".toList "x&y<z\"w'v".toList))
        = true
    ∧ wfEmptyTag (stripWs (generate_column_xml "a\"b".toList "1".toList))
        = false
    ∧ conversionInserts "INSERT INTO t (a\"b) VALUES (1);".toList
        = ["        <insert tableName=\"t\">\n            <column name=\"a\"b\" value=\"1\"/>\n        </insert>".toList] := by
  refine ⟨?_, ?_, ?_, by decide, by decide, by decide⟩
  · intro column value
    unfold generate_column_xml
    split
    · exact ⟨"            <column name=\"".toList, "\"/>".toList, rfl⟩
    · exact ⟨"            <column name=\"".toList,
        "\" value=\"".toList ++ escape_xml_chars value ++ "\"/>".toList,
        by simp [List.append_assoc]⟩
  · intro tableName cols vals
    have h1 : tableName <:+: insertHeader tableName :=
      ⟨"        <insert tableName=\"".toList, "\">".toList, rfl⟩
    exact h1.trans (prefix_intercalate_cons _ _ _).isInfix
  · intro column value h
    unfold generate_column_xml
    rw [if_neg h]
    simp only [List.count_append, count_dq_escape]
    have e1 : ("            <column name=\"".toList).count dq = 1 := by decide
    have e2 : ("\" value=\"".toList).count dq = 2 := by decide
    have e3 : ("\"/>".toList).count dq = 1 := by decide
    rw [e1, e2, e3]
    omega

/-- Witness for C10's quantified conjunct at a column name containing `"`. -/
theorem c10_identifiers_not_escaped_witness :
    pyUpper "1".toList ≠ "NULL".toList
      ∧ (generate_column_xml "a\"b".toList "1".toList).count dq
          = 4 + ("a\"b".toList).count dq :=
  ⟨by decide,
    c10_identifiers_not_escaped.2.2.1 "a\"b".toList "1".toList (by decide)⟩

/-! ### Claim C7: lenient positional pairing -/

theorem zip_getElem?_some {α β : Type} :
    ∀ (l1 : List α) (l2 : List β) (i : Nat) (x : α) (y : β),
      l1[i]? = some x → l2[i]? = some y → (l1.zip l2)[i]? = some (x, y) := by
  intro l1
  induction l1 with
  | nil => intro l2 i x y h1; simp at h1
  | cons a as ih =>
    intro l2 i x y h1 h2
    cases l2 with
    | nil => simp at h2
    | cons b bs =>
      cases i with
      | zero =>
        simp only [List.getElem?_cons_zero, Option.some.injEq] at h1 h2
        simp [List.zip_cons_cons, h1, h2]
      | succ j =>
        simp only [List.getElem?_cons_succ] at h1 h2
        simpa [List.zip_cons_cons] using ih bs j x y h1 h2

theorem map_fst_zip_sublist {α β : Type} :
    ∀ (l1 : List α) (l2 : List β), ((l1.zip l2).map Prod.fst).Sublist l1 := by
  intro l1
  induction l1 with
  | nil => intro l2; simp
  | cons a as ih =>
    intro l2
    cases l2 with
    | nil => simp
    | cons b bs =>
      simpa [List.zip_cons_cons] using (ih bs).cons₂ a

theorem dictFold_eq_append :
    ∀ (ps : List (List Char × List Char)) (d : List (List Char × List Char)),
      (ps.map Prod.fst).Nodup →
      (∀ p ∈ ps, ∀ r ∈ d, r.1 ≠ p.1) →
      ps.foldl (fun d p => dictInsert p.1 (csvCell p.2) d) d
        = d ++ ps.map (fun p => (p.1, csvCell p.2)) := by
  intro ps
  induction ps with
  | nil => intro d _ _; simp
  | cons p ps' ih =>
    intro d hnd hfresh
    rw [List.foldl_cons]
    have hnot : dictInsert p.1 (csvCell p.2) d = d ++ [(p.1, csvCell p.2)] := by
      unfold dictInsert
      rw [if_neg]
      simp only [List.any_eq_true, not_exists]
      intro r hr
      exact absurd (of_decide_eq_true hr.2) (hfresh p (by simp) r hr.1)
    rw [hnot]
    rw [List.map_cons, List.nodup_cons] at hnd
    rw [ih (d ++ [(p.1, csvCell p.2)]) hnd.2 ?_]
    · simp
    · intro p' hp' r hr
      rcases List.mem_append.mp hr with hrd | hrp
      · exact hfresh p' (by simp [hp']) r hrd
      · simp only [List.mem_singleton] at hrp
        subst hrp
        intro hc
        exact hnd.1 (hc ▸ List.mem_map_of_mem Prod.fst hp')

theorem csvRowDict_eq_zip (cols vals : List (List Char)) (hnd : cols.Nodup) :
    csvRowDict cols vals
      = (cols.zip vals).map (fun p => (p.1, csvCell p.2)) := by
  unfold csvRowDict
  rw [dictFold_eq_append (cols.zip vals) [] ((map_fst_zip_sublist _ _).nodup hnd)
    (by simp)]
  simp

/-- C7: for every parsed row the serializers raise no error and pair columns
with values positionally via `zip`: exactly `min(column count, value count)`
column entries are emitted (surplus columns or values are silently dropped),
the `i`-th entry pairing the `i`-th column name with the `i`-th value — both
for the XML `<column>` lines and (for distinct column names, as a Python
dict) for the CSV row mapping. -/
theorem c7_positional_pairing (cols vals : List (List Char)) :
    (insertColumnLines cols vals).length = min cols.length vals.length
    ∧ (∀ (i : Nat) (c v : List Char), cols[i]? = some c → vals[i]? = some v →
        (insertColumnLines cols vals)[i]? = some (generate_column_xml c v))
    ∧ (cols.Nodup →
        (csvRowDict cols vals).length = min cols.length vals.length
        ∧ ∀ (i : Nat) (c v : List Char), cols[i]? = some c →
            vals[i]? = some v →
            (csvRowDict cols vals)[i]? = some (c, csvCell v)) := by
  refine ⟨?_, ?_, ?_⟩
  · simp [insertColumnLines]
  · intro i c v h1 h2
    unfold insertColumnLines
    rw [List.getElem?_map, zip_getElem?_some cols vals i c v h1 h2]
    rfl
  · intro hnd
    rw [csvRowDict_eq_zip cols vals hnd]
    refine ⟨by simp, ?_⟩
    intro i c v h1 h2
    rw [List.getElem?_map, zip_getElem?_some cols vals i c v h1 h2]
    rfl

/-- Witness for C7 with three declared columns and two values: two entries
are emitted, the first pairing column `a` with value `1`. -/
theorem c7_positional_pairing_witness :
    (["a".toList, "b".toList, "c".toList][0]? = some "a".toList
        ∧ ["1".toList, "2".toList][0]? = some "1".toList
        ∧ ["a".toList, "b".toList, "c".toList].Nodup)
      ∧ (insertColumnLines ["a".toList, "b".toList, "c".toList]
            ["1".toList, "2".toList]).length
          = min ["a".toList, "b".toList, "c".toList].length
              ["1".toList, "2".toList].length
      ∧ (insertColumnLines ["a".toList, "b".toList, "c".toList]
            ["1".toList, "2".toList])[0]?
          = some (generate_column_xml "a".toList "1".toList)
      ∧ (csvRowDict ["a".toList, "b".toList, "c".toList]
            ["1".toList, "2".toList]).length
          = min ["a".toList, "b".toList, "c".toList].length
              ["1".toList, "2".toList].length
      ∧ (csvRowDict ["a".toList, "b".toList, "c".toList]
            ["1".toList, "2".toList])[0]?
          = some ("a".toList, csvCell "1".toList) :=
  ⟨⟨by decide, by decide, by decide⟩,
    (c7_positional_pairing _ _).1,
    (c7_positional_pairing _ _).2.1 0 _ _ (by decide) (by decide),
    ((c7_positional_pairing _ _).2.2 (by decide)).1,
    ((c7_positional_pairing _ _).2.2 (by decide)).2 0 _ _ (by decide)
      (by decide)⟩

/-! ### Claim C4: commas inside single-quoted spans never split a field

The row parser is exercised on a schema of rendered value tuples: a list of
fields, each either an unquoted token or a single-quoted string whose content
may contain commas, joined by `, `. -/

/-- An SQL scalar field as it appears inside a value tuple. -/
inductive SqlField : Type
  | unq : List Char → SqlField
  | quo : List Char → SqlField

/-- The SQL text of a field. -/
def renderField : SqlField → List Char
  | .unq s => s
  | .quo s => q :: s ++ [q]

/-- Schema side conditions: an unquoted token is nonempty, contains no comma
and no quote, and carries no surrounding whitespace; a quoted field's content
contains no quote and does not end in a backslash — it may contain commas,
which is the point of the claim. -/
def fieldOk : SqlField → Prop
  | .unq s => s ≠ [] ∧ ',' ∉ s ∧ q ∉ s ∧ stripWs s = s
  | .quo s => q ∉ s ∧ s.getLast? ≠ some bs

instance fieldOkDecidable (f : SqlField) : Decidable (fieldOk f) := by
  cases f <;> simp only [fieldOk] <;> infer_instance

/-- The field value the parser is expected to return (quotes stripped). -/
def fieldValue : SqlField → List Char
  | .unq s => s
  | .quo s => s

/-- A value tuple's inner text: the fields joined by `, `. -/
def renderRow (fs : List SqlField) : List Char :=
  List.intercalate [',', ' '] (fs.map renderField)

theorem getLast?_some_mem {l : List Char} {a : Char}
    (h : l.getLast? = some a) : a ∈ l := by
  obtain ⟨hne, heq⟩ :=
    List.mem_getLast?_eq_getLast (show a ∈ l.getLast? from h)
  rw [heq]
  exact List.getLast_mem hne

theorem dropWhile_append_all {p : Char → Bool} {a : List Char}
    (b : List Char) (h : ∀ c ∈ a, p c = true) :
    List.dropWhile p (a ++ b) = List.dropWhile p b := by
  induction a with
  | nil => rfl
  | cons c cs ih =>
    rw [List.cons_append, List.dropWhile_cons, if_pos (h c (by simp))]
    exact ih (fun c hc => h c (by simp [hc]))

theorem pyStrip_prefix_all {p : Char → Bool} {a : List Char}
    (b : List Char) (h : ∀ c ∈ a, p c = true) :
    pyStrip p (a ++ b) = pyStrip p b := by
  unfold pyStrip
  rw [dropWhile_append_all b h]

theorem pyStrip_eq_self_of_not_mem {p : Char → Bool} {l : List Char}
    (h : ∀ c ∈ l, p c = false) : pyStrip p l = l := by
  unfold pyStrip
  have h1 : List.dropWhile p l = l := by
    rw [List.dropWhile_eq_self_iff]
    intro hl
    rw [h _ (List.get_mem l 0 hl)]
    simp
  rw [h1, List.rdropWhile_eq_self_iff]
  intro hl
  rw [h _ (List.getLast_mem hl)]
  simp

theorem stripWs_quoted (s : List Char) :
    stripWs (q :: s ++ [q]) = q :: s ++ [q] := by
  unfold stripWs pyStrip
  rw [List.cons_append]
  have h1 : List.dropWhile isSpaceChar (q :: (s ++ [q])) = q :: (s ++ [q]) := by
    rw [List.dropWhile_cons, if_neg (by decide)]
  rw [h1, List.rdropWhile_eq_self_iff]
  intro hl
  have h4 : (q :: (s ++ [q])).getLast? = some q := by
    rw [← List.cons_append]
    exact List.getLast?_concat _
  rw [List.getLast?_eq_getLast_of_ne_nil hl] at h4
  injection h4 with h5
  rw [h5]
  decide

theorem stripQ_wrap {s : List Char} (h : q ∉ s) :
    stripQ (q :: s ++ [q]) = s := by
  cases s with
  | nil => decide
  | cons x xs =>
    unfold stripQ pyStrip
    rw [List.cons_append]
    have h1 : List.dropWhile (fun c => c = q) (q :: ((x :: xs) ++ [q]))
        = List.dropWhile (fun c => c = q) ((x :: xs) ++ [q]) := by
      rw [List.dropWhile_cons, if_pos (by simp)]
    have h2 : List.dropWhile (fun c => c = q) ((x :: xs) ++ [q])
        = (x :: xs) ++ [q] := by
      have hx : x ≠ q := fun hx => h (by simp [hx])
      rw [List.cons_append, List.dropWhile_cons, if_neg (by simpa using hx),
        ← List.cons_append]
    rw [h1, h2, List.rdropWhile_concat_pos _ _ _ (by simp),
      List.rdropWhile_eq_self_iff]
    intro hl
    simp only [decide_eq_true_eq]
    intro hc
    exact h (hc ▸ List.getLast_mem hl)

theorem parseRowLoop_skip_false (l : List Char) :
    ∀ (s cur : List Char), (∀ c ∈ s, c ≠ q ∧ c ≠ ',') →
      parseRowLoop (s ++ l) cur false = parseRowLoop l (cur ++ s) false := by
  intro s
  induction s with
  | nil => intro cur _; simp
  | cons c s' ih =>
    intro cur h
    have hc := h c (by simp)
    rw [List.cons_append]
    simp only [parseRowLoop]
    rw [if_neg (fun hp => hc.1 hp.1), if_neg (fun hp => hc.2 hp.1),
      ih (cur ++ [c]) (fun x hx => h x (by simp [hx]))]
    simp

theorem parseRowLoop_skip_true (l : List Char) :
    ∀ (s cur : List Char), (∀ c ∈ s, c ≠ q) →
      parseRowLoop (s ++ l) cur true = parseRowLoop l (cur ++ s) true := by
  intro s
  induction s with
  | nil => intro cur _; simp
  | cons c s' ih =>
    intro cur h
    have hc := h c (by simp)
    rw [List.cons_append]
    simp only [parseRowLoop]
    rw [if_neg (fun hp => hc hp.1), if_neg (fun hp => by simpa using hp.2),
      ih (cur ++ [c]) (fun x hx => h x (by simp [hx]))]
    simp

theorem parseRowLoop_quote (l cur : List Char) (b : Bool)
    (h : cur.getLast? ≠ some bs) :
    parseRowLoop (q :: l) cur b = parseRowLoop l (cur ++ [q]) (!b) := by
  simp only [parseRowLoop]
  rw [if_pos ⟨by trivial, Or.inr h⟩]

theorem parseRowLoop_comma (l cur : List Char) :
    parseRowLoop (',' :: l) cur false
      = stripWs cur :: parseRowLoop l [] false := by
  simp only [parseRowLoop]
  rw [if_neg (fun hp => by exact absurd hp.1 (by decide)),
    if_pos ⟨by trivial, by trivial⟩]

theorem spaces_getLast_ne_bs {cur : List Char}
    (hcur : ∀ c ∈ cur, isSpaceChar c = true) :
    cur.getLast? ≠ some bs := by
  intro h
  have := hcur bs (getLast?_some_mem h)
  simp [isSpaceChar, bs] at this

theorem parseRowLoop_field (l cur : List Char) (f : SqlField)
    (hok : fieldOk f) (hcur : ∀ c ∈ cur, isSpaceChar c = true) :
    parseRowLoop (renderField f ++ l) cur false
      = parseRowLoop l (cur ++ renderField f) false := by
  cases f with
  | unq s =>
    obtain ⟨-, hcomma, hq, -⟩ := hok
    exact parseRowLoop_skip_false l s cur
      (fun c hc => ⟨fun h => hq (h ▸ hc), fun h => hcomma (h ▸ hc)⟩)
  | quo s =>
    obtain ⟨hq, hlast⟩ := hok
    show parseRowLoop ((q :: s ++ [q]) ++ l) cur false = _
    rw [List.cons_append, List.cons_append,
      parseRowLoop_quote _ _ _ (spaces_getLast_ne_bs hcur)]
    simp only [Bool.not_false]
    rw [List.append_assoc s [q] l,
      parseRowLoop_skip_true _ s _ (fun c hc h => hq (h ▸ hc))]
    rw [show ([q] ++ l : List Char) = q :: l from rfl,
      parseRowLoop_quote _ _ _ ?hne]
    · simp [renderField, List.append_assoc]
    case hne =>
      cases hs : s with
      | nil =>
        rw [List.append_nil, List.getLast?_concat]
        decide
      | cons x xs =>
        rw [List.getLast?_append_of_ne_nil _ (by simp)]
        rw [hs] at hlast
        exact hlast

theorem intercalate_single (sep x : List Char) :
    List.intercalate sep [x] = x := by
  simp [List.intercalate]

theorem intercalate_cons₂ (sep x y : List Char) (xs : List (List Char)) :
    List.intercalate sep (x :: y :: xs)
      = x ++ sep ++ List.intercalate sep (y :: xs) := by
  simp [List.intercalate, List.intersperse_cons_cons, List.append_assoc]

theorem renderField_ne_nil (f : SqlField) (hok : fieldOk f) :
    renderField f ≠ [] := by
  cases f with
  | unq s => exact hok.1
  | quo s => simp [renderField]

theorem stripWs_after_spaces (b cur : List Char)
    (h : ∀ c ∈ cur, isSpaceChar c = true) :
    stripWs (cur ++ b) = stripWs b :=
  pyStrip_prefix_all b h

theorem parseRowLoop_fields :
    ∀ (fs : List SqlField) (cur : List Char), fs ≠ [] →
      (∀ f ∈ fs, fieldOk f) → (∀ c ∈ cur, isSpaceChar c = true) →
      parseRowLoop (List.intercalate [',', ' '] (fs.map renderField)) cur false
        = fs.map (fun f => stripWs (renderField f)) := by
  intro fs
  induction fs with
  | nil => intro cur h; exact absurd rfl h
  | cons f fs' ih =>
    intro cur _ hok hcur
    have hokf := hok f (by simp)
    cases fs' with
    | nil =>
      rw [List.map_cons, List.map_nil, intercalate_single,
        ← List.append_nil (renderField f),
        parseRowLoop_field [] cur f hokf hcur]
      simp only [parseRowLoop]
      rw [if_neg (by
        simp only [List.append_assoc, List.append_eq_nil]
        intro hc
        exact renderField_ne_nil f hokf hc.2)]
      rw [stripWs_after_spaces (renderField f) cur hcur]
      rfl
    | cons f2 fs'' =>
      have hT : List.intercalate [',', ' ']
            (List.map renderField (f :: f2 :: fs''))
          = renderField f ++ [',', ' ']
            ++ List.intercalate [',', ' ']
              (List.map renderField (f2 :: fs'')) := by
        rw [List.map_cons, List.map_cons, intercalate_cons₂]
      rw [hT, List.append_assoc,
        parseRowLoop_field _ cur f hokf hcur,
        show ([',', ' '] ++ List.intercalate [',', ' ']
            (List.map renderField (f2 :: fs'')) : List Char)
          = ',' :: ' ' :: List.intercalate [',', ' ']
            (List.map renderField (f2 :: fs'')) from rfl,
        parseRowLoop_comma,
        show (' ' :: List.intercalate [',', ' ']
            (List.map renderField (f2 :: fs'')) : List Char)
          = [' '] ++ List.intercalate [',', ' ']
            (List.map renderField (f2 :: fs'')) from rfl,
        parseRowLoop_skip_false _ [' '] [] (by decide),
        show ([] ++ [' '] : List Char) = [' '] from rfl,
        ih [' '] (by simp) (fun g hg => hok g (by simp [hg])) (by decide)]
      rw [stripWs_after_spaces (renderField f) cur hcur]
      rfl

theorem field_post (f : SqlField) (hok : fieldOk f) :
    stripQ (stripWs (stripWs (renderField f))) = fieldValue f := by
  cases f with
  | quo s =>
    show stripQ (stripWs (stripWs (q :: s ++ [q]))) = s
    rw [stripWs_quoted, stripWs_quoted, stripQ_wrap hok.1]
  | unq s =>
    obtain ⟨-, -, hq, hs⟩ := hok
    show stripQ (stripWs (stripWs s)) = s
    rw [hs, hs]
    exact pyStrip_eq_self_of_not_mem
      (fun c hc => decide_eq_false (fun h => hq (h ▸ hc)))

/-- C4: for every value-tuple text (rendered from a list of fields joined by
`, `, where quoted fields may contain commas) the row parser does not split
at a comma inside a single-quoted span: each quoted span is returned as a
single field, and splitting occurs only at the separating commas outside
single-quoted spans — the parse returns exactly the field values, in
order. -/
theorem c4_quoted_commas (fs : List SqlField)
    (hok : ∀ f ∈ fs, fieldOk f) :
    parse_values_row (renderRow fs) = fs.map fieldValue := by
  cases fs with
  | nil => rfl
  | cons f fs' =>
    unfold parse_values_row renderRow
    rw [parseRowLoop_fields (f :: fs') [] (by simp) hok (by simp),
      List.map_map]
    exact List.map_congr_left (fun g hg => field_post g (hok g hg))

/-- Witness for C4: the quoted field `'Smith, John'` (a comma inside the
quotes) is returned as the single field `Smith, John`. -/
theorem c4_quoted_commas_witness :
    (∀ f ∈ [SqlField.unq "1".toList, SqlField.quo "Smith, John".toList],
        fieldOk f)
      ∧ parse_values_row
          (renderRow [SqlField.unq "1".toList, SqlField.quo "Smith, John".toList])
        = ["1".toList, "Smith, John".toList] :=
  ⟨by decide,
    c4_quoted_commas
      [SqlField.unq "1".toList, SqlField.quo "Smith, John".toList] (by decide)⟩

/-! ### Claim C3 (amended): a trailing malformed statement is skipped

Schema: well-formed statements in the canonical cleaned shape
`INSERT INTO t (cols) VALUES vals;`, separated by single spaces, followed by
a trailing piece of text containing no semicolon (in particular a final
statement that lacks its terminating `;`). -/

/-- The canonical cleaned text `INSERT INTO t (cols) VALUES vals;`. -/
def renderStmt (t cols vals : List Char) : List Char :=
  "INSERT INTO ".toList ++ (t ++ (' ' :: '(' ::
    (cols ++ (')' :: ' ' :: 'V' :: 'A' :: 'L' :: 'U' :: 'E' :: 'S' :: ' ' ::
      (vals ++ [';'])))))

/-- The values text must not open with whitespace (in cleaned content it
starts with `(`). -/
def headNotSpace : List Char → Prop
  | [] => True
  | c :: _ => isSpaceChar c = false

instance headNotSpaceDecidable (l : List Char) : Decidable (headNotSpace l) := by
  cases l <;> simp only [headNotSpace] <;> infer_instance

/-- Side conditions under which the statement regex recovers exactly the
rendered triple: a nonempty table name over `[\w_.]`, no `)` in the columns
text, no `;` in the values text, values not starting with whitespace. -/
def stmtOk (s : List Char × List Char × List Char) : Prop :=
  s.1 ≠ [] ∧ (∀ c ∈ s.1, isWordDot c = true) ∧ ')' ∉ s.2.1
    ∧ ';' ∉ s.2.2 ∧ headNotSpace s.2.2

instance stmtOkDecidable (s : List Char × List Char × List Char) :
    Decidable (stmtOk s) := by
  unfold stmtOk
  infer_instance

/-- A sequence of statements in cleaned content, separated by single
spaces (each statement is followed by one space). -/
def renderStmts : List (List Char × List Char × List Char) → List Char
  | [] => []
  | s :: rest => renderStmt s.1 s.2.1 s.2.2 ++ (' ' :: renderStmts rest)

theorem dropLit_self (p : List Char) : ∀ r, dropLit p (p ++ r) = some r := by
  induction p with
  | nil => intro r; rfl
  | cons c cs ih =>
    intro r
    rw [List.cons_append]
    simp only [dropLit, if_pos rfl]
    exact ih r

theorem dropLit_suffix {p s r : List Char} (h : dropLit p s = some r) :
    r <:+ s := by
  induction p generalizing s with
  | nil =>
    simp only [dropLit, Option.some.injEq] at h
    exact h ▸ List.suffix_refl r
  | cons c cs ih =>
    cases s with
    | nil => simp [dropLit] at h
    | cons x xs =>
      simp only [dropLit] at h
      split at h
      · exact (ih h).trans (List.suffix_cons x xs)
      · exact absurd h (by simp)

theorem takeWhile_append_all {p : Char → Bool} {a : List Char} (b : List Char)
    (h : ∀ c ∈ a, p c = true) :
    List.takeWhile p (a ++ b) = a ++ List.takeWhile p b := by
  induction a with
  | nil => rfl
  | cons c cs ih =>
    rw [List.cons_append, List.takeWhile_cons, if_pos (h c (by simp)),
      ih (fun x hx => h x (by simp [hx])), List.cons_append]

theorem dropWhileWs_vals {vals : List Char} (l : List Char)
    (hh : headNotSpace vals) :
    List.dropWhile isSpaceChar (vals ++ ';' :: l) = vals ++ ';' :: l := by
  cases vals with
  | nil => rw [List.nil_append, List.dropWhile_cons, if_neg (by decide)]
  | cons v vs =>
    rw [List.cons_append, List.dropWhile_cons,
      if_neg (by simp [headNotSpace] at hh; simp [hh])]

theorem contAfterParen_render {vals : List Char} (l : List Char)
    (hv : ';' ∉ vals) (hh : headNotSpace vals) :
    contAfterParen (' ' :: 'V' :: 'A' :: 'L' :: 'U' :: 'E' :: 'S' :: ' ' ::
        (vals ++ ';' :: l))
      = some (vals, l) := by
  unfold contAfterParen
  rw [List.dropWhile_cons, if_pos (by decide), List.dropWhile_cons,
    if_neg (by decide)]
  rw [show ('V' :: 'A' :: 'L' :: 'U' :: 'E' :: 'S' :: ' ' ::
      (vals ++ ';' :: l) : List Char)
    = "VALUES".toList ++ (' ' :: (vals ++ ';' :: l)) from rfl]
  rw [dropLit_self]
  simp only
  rw [List.dropWhile_cons, if_pos (by decide), dropWhileWs_vals l hh]
  have hall : ∀ c ∈ vals, (fun c => decide (c ≠ ';')) c = true :=
    fun c hc => decide_eq_true (show c ≠ ';' from fun h => hv (h ▸ hc))
  have ht : List.takeWhile (fun c => decide (c ≠ ';')) (vals ++ ';' :: l)
      = vals := by
    rw [@takeWhile_append_all (fun c => decide (c ≠ ';')) vals (';' :: l) hall,
      List.takeWhile_cons, if_neg (by decide), List.append_nil]
  have hd : List.dropWhile (fun c => decide (c ≠ ';')) (vals ++ ';' :: l)
      = ';' :: l := by
    rw [@dropWhile_append_all (fun c => decide (c ≠ ';')) vals (';' :: l) hall,
      List.dropWhile_cons, if_neg (by decide)]
  rw [ht, hd]

theorem tryCloseParen_cols {g3 after : List Char} :
    ∀ (cols acc l' : List Char), ')' ∉ cols →
      contAfterParen l' = some (g3, after) →
      tryCloseParen (cols ++ ')' :: l') acc
        = some (acc.reverse ++ cols, g3, after) := by
  intro cols
  induction cols with
  | nil =>
    intro acc l' _ hcont
    rw [List.nil_append]
    simp only [tryCloseParen]
    rw [if_pos (by trivial), hcont]
    simp
  | cons c cs ih =>
    intro acc l' hc hcont
    rw [List.cons_append]
    simp only [tryCloseParen]
    rw [if_neg (fun h => hc (by simp [h]))]
    rw [ih (c :: acc) l' (fun h => hc (by simp [h])) hcont]
    simp

theorem matchInsertAt_render (t cols vals l : List Char)
    (ht : t ≠ []) (htw : ∀ c ∈ t, isWordDot c = true)
    (hcp : ')' ∉ cols) (hv : ';' ∉ vals) (hh : headNotSpace vals) :
    matchInsertAt (renderStmt t cols vals ++ l)
      = some ((t, cols, vals), l) := by
  have hshape : renderStmt t cols vals ++ l
      = "INSERT INTO ".toList ++ (t ++ (' ' :: '(' ::
          (cols ++ (')' :: ' ' :: 'V' :: 'A' :: 'L' :: 'U' :: 'E' :: 'S' ::
            ' ' :: (vals ++ ';' :: l))))) := by
    simp [renderStmt, List.append_assoc]
  rw [hshape]
  unfold matchInsertAt
  rw [dropLit_self]
  simp only
  have h1 : (t ++ (' ' :: '(' ::
        (cols ++ (')' :: ' ' :: 'V' :: 'A' :: 'L' :: 'U' :: 'E' :: 'S' ::
          ' ' :: (vals ++ ';' :: l))))).takeWhile isWordDot = t := by
    rw [takeWhile_append_all _ htw, List.takeWhile_cons, if_neg (by decide),
      List.append_nil]
  have h2 : (t ++ (' ' :: '(' ::
        (cols ++ (')' :: ' ' :: 'V' :: 'A' :: 'L' :: 'U' :: 'E' :: 'S' ::
          ' ' :: (vals ++ ';' :: l))))).dropWhile isWordDot
      = ' ' :: '(' ::
        (cols ++ (')' :: ' ' :: 'V' :: 'A' :: 'L' :: 'U' :: 'E' :: 'S' ::
          ' ' :: (vals ++ ';' :: l))) := by
    rw [dropWhile_append_all _ htw, List.dropWhile_cons, if_neg (by decide)]
  rw [h1, h2, if_neg ht]
  rw [List.dropWhile_cons, if_pos (by decide), List.dropWhile_cons,
    if_neg (by decide)]
  simp only
  rw [tryCloseParen_cols cols []
    (' ' :: 'V' :: 'A' :: 'L' :: 'U' :: 'E' :: 'S' :: ' ' :: (vals ++ ';' :: l))
    hcp (contAfterParen_render l hv hh)]
  simp

theorem contAfterParen_no_semi {s : List Char} (h : ';' ∉ s) :
    contAfterParen s = none := by
  unfold contAfterParen
  cases hd : dropLit "VALUES".toList (s.dropWhile isSpaceChar) with
  | none => rfl
  | some s2 =>
    have h2 : ';' ∉ s2 := fun hm =>
      h (((dropLit_suffix hd).trans (List.dropWhile_suffix _)).subset hm)
    have h3 : List.dropWhile (fun c => decide (c ≠ ';'))
        (s2.dropWhile isSpaceChar) = [] := by
      rw [List.dropWhile_eq_nil_iff]
      intro x hx
      exact decide_eq_true (show x ≠ ';' from fun he =>
        h2 (he ▸ (List.dropWhile_suffix isSpaceChar).subset hx))
    simp only [h3]

theorem tryCloseParen_no_semi :
    ∀ {s : List Char} (acc : List Char), ';' ∉ s →
      tryCloseParen s acc = none := by
  intro s
  induction s with
  | nil => intro acc _; rfl
  | cons c rest ih =>
    intro acc h
    have hrest : ';' ∉ rest := fun hm => h (by simp [hm])
    simp only [tryCloseParen]
    split
    · rw [contAfterParen_no_semi hrest]
      exact ih (c :: acc) hrest
    · exact ih (c :: acc) hrest

theorem matchInsertAt_no_semi {s : List Char} (h : ';' ∉ s) :
    matchInsertAt s = none := by
  unfold matchInsertAt
  cases hd : dropLit "INSERT INTO ".toList s with
  | none => rfl
  | some s1 =>
    have h1 : ';' ∉ s1 := fun hm => h ((dropLit_suffix hd).subset hm)
    simp only
    split
    · rfl
    · split
      · rename_i s4 hs4
        have hsub : '(' :: s4 <:+ s1 := by
          rw [← hs4]
          exact (List.dropWhile_suffix isSpaceChar).trans
            (List.dropWhile_suffix isWordDot)
        have h4 : ';' ∉ s4 := fun hm => h1 (hsub.subset (by simp [hm]))
        rw [tryCloseParen_no_semi [] h4]
      · rfl

theorem findallInsert_no_semi {l : List Char} (h : ';' ∉ l) :
    findallInsert l = [] := by
  induction l with
  | nil => rfl
  | cons c rest ih =>
    rw [findallInsert_cons_none (matchInsertAt_no_semi h)]
    exact ih (fun hm => h (by simp [hm]))

theorem matchInsertAt_space (xs : List Char) :
    matchInsertAt (' ' :: xs) = none := by
  unfold matchInsertAt
  rw [show "INSERT INTO ".toList
    = 'I' :: "NSERT INTO ".toList from rfl]
  simp only [dropLit]
  rw [if_neg (by decide)]

theorem findallInsert_some {inp after : List Char}
    {t : List Char × List Char × List Char}
    (h : matchInsertAt inp = some (t, after)) :
    findallInsert inp = t :: findallInsert after := by
  cases inp with
  | nil =>
    have : matchInsertAt ([] : List Char) = none := by decide
    rw [this] at h
    exact absurd h (by simp)
  | cons c rest => exact findallInsert_cons_some h

/-- C3 (amended): for every input consisting of well-formed statements (in
canonical cleaned shape, single-space separated) followed by a trailing
malformed piece containing no semicolon — in particular a final statement
missing its trailing `;` — the extractor skips the malformed piece and
returns exactly the triples of the well-formed statements, in order, so each
well-formed statement still produces its own rows.  (When the malformed
statement instead precedes a well-formed one, `c3_counterexample` shows that
the following statement is swallowed.) -/
theorem c3_amended_trailing_malformed
    (stmts : List (List Char × List Char × List Char)) (bad : List Char)
    (hok : ∀ s ∈ stmts, stmtOk s) (hbad : ';' ∉ bad) :
    findallInsert (renderStmts stmts ++ bad) = stmts := by
  induction stmts with
  | nil =>
    rw [show renderStmts [] = [] from rfl, List.nil_append]
    exact findallInsert_no_semi hbad
  | cons s rest ih =>
    obtain ⟨t, cols, vals⟩ := s
    obtain ⟨ht, htw, hcp, hv, hh⟩ := hok (t, cols, vals) (by simp)
    have hshape : renderStmts ((t, cols, vals) :: rest) ++ bad
        = renderStmt t cols vals ++ (' ' :: (renderStmts rest ++ bad)) := by
      simp [renderStmts, List.append_assoc]
    rw [hshape,
      findallInsert_some
        (matchInsertAt_render t cols vals (' ' :: (renderStmts rest ++ bad))
          ht htw hcp hv hh),
      findallInsert_cons_none (matchInsertAt_space _),
      ih (fun s hs => hok s (by simp [hs]))]

/-- Witness for C3 (amended): two well-formed statements followed by a
statement missing its trailing semicolon — the two well-formed triples are
extracted, the trailing malformed statement is skipped. -/
theorem c3_amended_trailing_malformed_witness :
    ((∀ s ∈ [("a".toList, "x".toList, "(1)".toList),
         ("b".toList, "y".toList, "(2)".toList)], stmtOk s)
      ∧ ';' ∉ "INSERT INTO c (z) VALUES (3)".toList)
    ∧ findallInsert
        (renderStmts [("a".toList, "x".toList, "(1)".toList),
            ("b".toList, "y".toList, "(2)".toList)]
          ++ "INSERT INTO c (z) VALUES (3)".toList)
      = [("a".toList, "x".toList, "(1)".toList),
         ("b".toList, "y".toList, "(2)".toList)] :=
  ⟨⟨by decide, by decide⟩,
    c3_amended_trailing_malformed
      [("a".toList, "x".toList, "(1)".toList),
       ("b".toList, "y".toList, "(2)".toList)]
      "INSERT INTO c (z) VALUES (3)".toList (by decide) (by decide)⟩

end SqlLiquibase
